import Mathlib

/-!
Shallow embedding of the Bayesian-optimization core of
`src/bayesian_optimization.py`, over exact real arithmetic.

Conventions of the embedding:
* a numpy array of shape `(n,)` becomes a function `Fin n → ℝ`, a 2-d array
  of shape `(p, q)` becomes a `Matrix (Fin p) (Fin q) ℝ`;
* a python call that raises (`np.linalg.inv` on an exactly singular matrix,
  `np.max` on an empty array, a shape mismatch in `@`) is modelled by
  `Option`, `none` standing for the raised exception;
* floating-point arithmetic is idealized as exact real arithmetic;
* `scipy.stats.norm.cdf` is the standard normal distribution function,
  embedded as the Lebesgue integral of the standard normal density.
-/

namespace BayesOpt

noncomputable section

open Real Set MeasureTheory Matrix

/-- Source `rbf_kernel(x1, x2, sigma=1)` (lines 70-81).
`xx, yy = np.meshgrid(x2, x1)` gives `xx[i][j] = x2[j]` and `yy[i][j] = x1[i]`,
so `rbf = np.exp(-(xx - yy)**2/(2 * sigma**2))` has entry
`(i, j) = exp(-(x2[j] - x1[i])^2 / (2*sigma^2))`.  The function performs no
validation of `sigma` and cannot fail. -/
def rbf_kernel {p q : ℕ} (x1 : Fin p → ℝ) (x2 : Fin q → ℝ) (sigma : ℝ) :
    Matrix (Fin p) (Fin q) ℝ :=
  Matrix.of fun i j => Real.exp (-(x2 j - x1 i) ^ 2 / (2 * sigma ^ 2))

/-- Source line 125 inside `fitted_gaus`:
`sigma_bb = rbf_kernel(prev_x, prev_x) + noise**2 * np.eye(prev_x.shape[0])`. -/
def sigma_bb {m : ℕ} (prev_x : Fin m → ℝ) (noise : ℝ) : Matrix (Fin m) (Fin m) ℝ :=
  rbf_kernel prev_x prev_x 1 + noise ^ 2 • (1 : Matrix (Fin m) (Fin m) ℝ)

/-- Source `fitted_gaus(X, prev_x, prev_y, noise)` (lines 111-135).
`np.linalg.inv` raises `LinAlgError` exactly on a singular matrix, modelled by
the `none` branch; on a nonsingular matrix `Matrix.inv` agrees with the true
inverse.  Lines 132-133:
`mean_a  = sigma_ab @ sigma_bb_inv @ prev_y`,
`cov_a   = sigma_aa - (sigma_ab @ sigma_bb_inv @ sigma_ba)`. -/
def fitted_gaus {n m : ℕ} (X : Fin n → ℝ) (prev_x prev_y : Fin m → ℝ) (noise : ℝ) :
    Option ((Fin n → ℝ) × Matrix (Fin n) (Fin n) ℝ) :=
  if (sigma_bb prev_x noise).det = 0 then none
  else
    let sigma_aa := rbf_kernel X X 1
    let sigma_ba := rbf_kernel prev_x X 1
    let sigma_ab := rbf_kernel X prev_x 1
    let sigma_bb_inv := (sigma_bb prev_x noise)⁻¹
    some ((sigma_ab * sigma_bb_inv).mulVec prev_y,
      sigma_aa - sigma_ab * sigma_bb_inv * sigma_ba)

/-- Standard normal density, `scipy.stats.norm.pdf`. -/
def normPdf (x : ℝ) : ℝ := Real.exp (-x ^ 2 / 2) / Real.sqrt (2 * π)

/-- Standard normal distribution function, `scipy.stats.norm.cdf`. -/
def normCdf (x : ℝ) : ℝ := ∫ t in Iic x, normPdf t

/-- Source `exp_imp(X, prev_x, prev_y, noise, epcilon)` (lines 197-216).
Both internal `fitted_gaus` calls invert the same `sigma_bb`; `np.max` on the
empty `prev_means` raises, modelled by the `0 < m` test.  Line 213-215:
`imp = means - best_mean - epcilon`, `Z = imp / sds`,
`exp_imp = imp * cdf(Z) + sds * pdf(Z)`. -/
def exp_imp {n m : ℕ} (X : Fin n → ℝ) (prev_x prev_y : Fin m → ℝ)
    (noise epcilon : ℝ) : Option (Fin n → ℝ) :=
  match fitted_gaus X prev_x prev_y noise, fitted_gaus prev_x prev_x prev_y noise with
  | some (means, cov_mat), some (prev_means, _) =>
      if hm : 0 < m then
        let sds : Fin n → ℝ := fun i => Real.sqrt (cov_mat i i)
        let best_mean : ℝ := Finset.univ.sup' ⟨⟨0, hm⟩, Finset.mem_univ _⟩ prev_means
        let imp : Fin n → ℝ := fun i => means i - best_mean - epcilon
        let Z : Fin n → ℝ := fun i => imp i / sds i
        some fun i => imp i * normCdf (Z i) + sds i * normPdf (Z i)
      else none
  | _, _ => none

/-- Source `prob_imp(X, prev_x, prev_y, noise, epsilon)` (lines 304-321).
Line 320: `Z = (means - best_mean - epsilon) / (sds + 1e-9)`. -/
def prob_imp {n m : ℕ} (X : Fin n → ℝ) (prev_x prev_y : Fin m → ℝ)
    (noise epsilon : ℝ) : Option (Fin n → ℝ) :=
  match fitted_gaus X prev_x prev_y noise, fitted_gaus prev_x prev_x prev_y noise with
  | some (means, cov_mat), some (prev_means, _) =>
      if hm : 0 < m then
        let sds : Fin n → ℝ := fun i => Real.sqrt (cov_mat i i)
        let best_mean : ℝ := Finset.univ.sup' ⟨⟨0, hm⟩, Finset.mem_univ _⟩ prev_means
        let Z : Fin n → ℝ := fun i =>
          (means i - best_mean - epsilon) / (sds i + 1 / 1000000000)
        some fun i => normCdf (Z i)
      else none
  | _, _ => none

/-- Source line 38: `bounds = [0, 10]`. -/
def bounds : ℝ × ℝ := (0, 10)

/-- `np.linspace(a, b, k)`: `k` evenly spaced points from `a` to `b`,
endpoint included. -/
def linspace (a b : ℝ) (k : ℕ) : Fin k → ℝ :=
  fun i => a + (b - a) * ((i : ℕ) : ℝ) / ((k : ℝ) - 1)

/-- Source line 273: `xs = np.linspace(*bounds, 100)`, the fixed candidate
grid of the optimization loop. -/
def xs : Fin 100 → ℝ := linspace bounds.1 bounds.2 100

/-- Helper for `np.argmax`: first-occurrence argmax among indices `0..j`. -/
def argmaxUpTo {k : ℕ} (v : Fin (k + 1) → ℝ) : ℕ → Fin (k + 1)
  | 0 => 0
  | j + 1 =>
      let b := argmaxUpTo v j
      if h : j + 1 < k + 1 then (if v b < v ⟨j + 1, h⟩ then ⟨j + 1, h⟩ else b) else b

/-- `np.argmax`: index of the first occurrence of the maximum value. -/
def argmaxIdx {k : ℕ} (v : Fin (k + 1) → ℝ) : Fin (k + 1) := argmaxUpTo v k

/-- One post-seeding iteration of the EI optimization loop (lines 273-279):
`probas = exp_imp(xs, X, Y, noise, epcilon)`;
`new_x = xs[np.argmax(probas)]`; `X = np.append(X, new_x)`;
`new_y = objective_function(new_x, noise)`; `Y = np.append(Y, new_y)`.
The noisy objective oracle is abstracted as the function `f`; a shape
mismatch between `X` and `Y` inside the matrix products raises, modelled by
the length test. -/
def bo_step (f : ℝ → ℝ) (noise epcilon : ℝ) (X Y : List ℝ) :
    Option (List ℝ × List ℝ) :=
  if h : Y.length = X.length then
    match exp_imp xs X.get (fun i => Y.get (Fin.cast h.symm i)) noise epcilon with
    | some probas =>
        let new_x := xs (argmaxIdx probas)
        some (X ++ [new_x], Y ++ [f new_x])
    | none => none
  else none

/-- Modelled from the spec: the squared-exponential kernel
`K(x,x') = exp(-(x-x')² / (2·lengthscale²))` (spec section 4.1). -/
def specK (l x y : ℝ) : ℝ := Real.exp (-(x - y) ^ 2 / (2 * l ^ 2))

/-- Modelled from the spec: the kernel matrix `K(A, B)` (spec section 4.2
step 2). -/
def specKmat (l : ℝ) {p q : ℕ} (A : Fin p → ℝ) (B : Fin q → ℝ) :
    Matrix (Fin p) (Fin q) ℝ :=
  Matrix.of fun i j => specK l (A i) (B j)

/-- Modelled from the spec: `Σ_oo = K(observed_x, observed_x) + noise_std²·I`
(spec section 4.2 step 1). -/
def specSigmaOO (l : ℝ) {m : ℕ} (ox : Fin m → ℝ) (noise_std : ℝ) :
    Matrix (Fin m) (Fin m) ℝ :=
  specKmat l ox ox + noise_std ^ 2 • 1

/-- Modelled from the spec: `mean = Σ_qo · Σ_oo⁻¹ · observed_y`
(spec section 4.2 step 4). -/
def specMean (l : ℝ) {n m : ℕ} (q : Fin n → ℝ) (ox oy : Fin m → ℝ)
    (noise_std : ℝ) : Fin n → ℝ :=
  (specKmat l q ox * (specSigmaOO l ox noise_std)⁻¹).mulVec oy

/-- Modelled from the spec: `covariance = Σ_qq − Σ_qo · Σ_oo⁻¹ · Σ_oq`
(spec section 4.2 step 5). -/
def specCov (l : ℝ) {n m : ℕ} (q : Fin n → ℝ) (ox : Fin m → ℝ)
    (noise_std : ℝ) : Matrix (Fin n) (Fin n) ℝ :=
  specKmat l q q - specKmat l q ox * (specSigmaOO l ox noise_std)⁻¹ * specKmat l ox q

/-- Modelled from the spec, exactly as claim C2 words the EI score:
`(f* − μ − ε)·Φ(Z) + σ·φ(Z)` with `Z = (f* − μ − ε)/σ`, where `μ`, `σ` are
the posterior mean and standard deviation at the candidate and `f*` is the
maximum posterior mean over the observed points. -/
def ei_spec_claimed {n m : ℕ} (q : Fin n → ℝ) (ox oy : Fin m → ℝ)
    (noise_std eps : ℝ) : Option (Fin n → ℝ) :=
  if h : 0 < m ∧ (specSigmaOO 1 ox noise_std).det ≠ 0 then
    let mu := specMean 1 q ox oy noise_std
    let sd := fun i => Real.sqrt (specCov 1 q ox noise_std i i)
    let fstar : ℝ :=
      Finset.univ.sup' ⟨⟨0, h.1⟩, Finset.mem_univ _⟩ (specMean 1 ox ox oy noise_std)
    some fun i =>
      (fstar - mu i - eps) * normCdf ((fstar - mu i - eps) / sd i) +
        sd i * normPdf ((fstar - mu i - eps) / sd i)
  else none

/-- The EI score of claim C2 with the sign of the improvement corrected to
the code's maximization convention: `(μ − f* − ε)·Φ(Z) + σ·φ(Z)` with
`Z = (μ − f* − ε)/σ`; `f*` is still the maximum posterior mean over the
observed points, obtained from a second posterior call. -/
def ei_spec_amended {n m : ℕ} (q : Fin n → ℝ) (ox oy : Fin m → ℝ)
    (noise_std eps : ℝ) : Option (Fin n → ℝ) :=
  if h : 0 < m ∧ (specSigmaOO 1 ox noise_std).det ≠ 0 then
    let mu := specMean 1 q ox oy noise_std
    let sd := fun i => Real.sqrt (specCov 1 q ox noise_std i i)
    let fstar : ℝ :=
      Finset.univ.sup' ⟨⟨0, h.1⟩, Finset.mem_univ _⟩ (specMean 1 ox ox oy noise_std)
    some fun i =>
      (mu i - fstar - eps) * normCdf ((mu i - fstar - eps) / sd i) +
        sd i * normPdf ((mu i - fstar - eps) / sd i)
  else none

/-! Basic facts about the embedded definitions. -/

lemma rbf_kernel_eq_specKmat {p q : ℕ} (x1 : Fin p → ℝ) (x2 : Fin q → ℝ) (s : ℝ) :
    rbf_kernel x1 x2 s = specKmat s x1 x2 := by
  ext i j
  simp only [rbf_kernel, specKmat, specK, Matrix.of_apply]
  congr 1
  ring

lemma rbf_kernel_transpose {p q : ℕ} (x1 : Fin p → ℝ) (x2 : Fin q → ℝ) (s : ℝ) :
    (rbf_kernel x1 x2 s)ᵀ = rbf_kernel x2 x1 s := by
  ext i j
  simp only [Matrix.transpose_apply, rbf_kernel, Matrix.of_apply]
  congr 1
  ring

lemma sigma_bb_transpose {m : ℕ} (prev_x : Fin m → ℝ) (noise : ℝ) :
    (sigma_bb prev_x noise)ᵀ = sigma_bb prev_x noise := by
  simp [sigma_bb, Matrix.transpose_add, Matrix.transpose_smul,
    rbf_kernel_transpose]

lemma fitted_gaus_of_det_ne {n m : ℕ} (X : Fin n → ℝ) (prev_x prev_y : Fin m → ℝ)
    (noise : ℝ) (h : (sigma_bb prev_x noise).det ≠ 0) :
    fitted_gaus X prev_x prev_y noise =
      some ((rbf_kernel X prev_x 1 * (sigma_bb prev_x noise)⁻¹).mulVec prev_y,
        rbf_kernel X X 1 -
          rbf_kernel X prev_x 1 * (sigma_bb prev_x noise)⁻¹ * rbf_kernel prev_x X 1) := by
  simp [fitted_gaus, h]

lemma fitted_gaus_none_iff {n m : ℕ} (X : Fin n → ℝ) (prev_x prev_y : Fin m → ℝ)
    (noise : ℝ) :
    fitted_gaus X prev_x prev_y noise = none ↔ (sigma_bb prev_x noise).det = 0 := by
  by_cases h : (sigma_bb prev_x noise).det = 0 <;> simp [fitted_gaus, h]

lemma fitted_gaus_empty {n : ℕ} (X : Fin n → ℝ) (prev_x prev_y : Fin 0 → ℝ)
    (noise : ℝ) :
    fitted_gaus X prev_x prev_y noise = some (fun _ => 0, rbf_kernel X X 1) := by
  have hdet : (sigma_bb prev_x noise).det ≠ 0 := by
    simp [Matrix.det_isEmpty]
  rw [fitted_gaus_of_det_ne _ _ _ _ hdet]
  have h1 : (rbf_kernel X prev_x 1 * (sigma_bb prev_x noise)⁻¹).mulVec prev_y =
      fun _ => (0 : ℝ) := by
    funext i
    simp [Matrix.mulVec, Matrix.dotProduct]
  have h2 : rbf_kernel X prev_x 1 * (sigma_bb prev_x noise)⁻¹ * rbf_kernel prev_x X 1 =
      (0 : Matrix (Fin n) (Fin n) ℝ) := by
    ext i j
    simp [Matrix.mul_apply]
  rw [h1, h2, sub_zero]

lemma sigma_bb_eq_spec {m : ℕ} (prev_x : Fin m → ℝ) (noise : ℝ) :
    sigma_bb prev_x noise = specSigmaOO 1 prev_x noise := by
  simp [sigma_bb, specSigmaOO, rbf_kernel_eq_specKmat]

lemma fitted_gaus_eq_spec {n m : ℕ} (X : Fin n → ℝ) (prev_x prev_y : Fin m → ℝ)
    (noise : ℝ) (hdet : (specSigmaOO 1 prev_x noise).det ≠ 0) :
    fitted_gaus X prev_x prev_y noise =
      some (specMean 1 X prev_x prev_y noise, specCov 1 X prev_x noise) := by
  rw [fitted_gaus_of_det_ne _ _ _ _ (by rw [sigma_bb_eq_spec]; exact hdet)]
  simp [specMean, specCov, rbf_kernel_eq_specKmat, sigma_bb_eq_spec]

/-- C1: for every query-point sequence, every nonempty observation set, and
every noise_std for which the regularized observation covariance is
invertible (as the claim's `Σ_oo⁻¹` presupposes), the GP posterior returns
`mean = Σ_qo · Σ_oo⁻¹ · observed_y` and
`covariance = Σ_qq − Σ_qo · Σ_oo⁻¹ · Σ_oq`, with `K` the squared-exponential
kernel. -/
theorem posterior_matches_spec {n m : ℕ} (X : Fin n → ℝ) (prev_x prev_y : Fin m → ℝ)
    (noise : ℝ) (_hm : 0 < m) (hdet : (specSigmaOO 1 prev_x noise).det ≠ 0) :
    fitted_gaus X prev_x prev_y noise =
      some (specMean 1 X prev_x prev_y noise, specCov 1 X prev_x noise) :=
  fitted_gaus_eq_spec X prev_x prev_y noise hdet

/-- Witness for C1 at the concrete input `X = [0]`, `prev_x = [0]`,
`prev_y = [1]`, `noise = 1`, where `Σ_oo = [[2]]` is invertible. -/
theorem posterior_matches_spec_witness :
    (0 : ℕ) < 1 ∧ (specSigmaOO 1 ![(0 : ℝ)] 1).det ≠ 0 ∧
    fitted_gaus ![(0 : ℝ)] ![0] ![1] 1 =
      some (specMean 1 ![(0 : ℝ)] ![0] ![1] 1, specCov 1 ![(0 : ℝ)] ![0] 1) := by
  have hdet : (specSigmaOO 1 ![(0 : ℝ)] 1).det ≠ 0 := by
    rw [Matrix.det_fin_one]
    simp [specSigmaOO, specKmat, specK, Matrix.add_apply, Matrix.smul_apply,
      Matrix.one_apply]
  exact ⟨one_pos, hdet, posterior_matches_spec _ _ _ _ one_pos hdet⟩

/-- C3: with zero observations the posterior succeeds (no error) and returns
an all-zero mean together with the raw kernel matrix over the query points,
for every query-point sequence and every noise_std. -/
theorem posterior_zero_observations {n : ℕ} (X : Fin n → ℝ) (noise_std : ℝ) :
    fitted_gaus X ![] ![] noise_std = some (fun _ => 0, rbf_kernel X X 1) :=
  fitted_gaus_empty X ![] ![] noise_std

/-- C4: whenever the GP posterior is defined, the returned covariance matrix
is symmetric: `cov i j = cov j i` for all indices (exactly, in real
arithmetic). -/
theorem posterior_cov_symmetric {n m : ℕ} (X : Fin n → ℝ) (prev_x prev_y : Fin m → ℝ)
    (noise : ℝ) (mean : Fin n → ℝ) (cov : Matrix (Fin n) (Fin n) ℝ)
    (h : fitted_gaus X prev_x prev_y noise = some (mean, cov)) :
    ∀ i j, cov i j = cov j i := by
  by_cases hdet : (sigma_bb prev_x noise).det = 0
  · simp [fitted_gaus, hdet] at h
  · rw [fitted_gaus_of_det_ne _ _ _ _ hdet] at h
    simp only [Option.some.injEq, Prod.mk.injEq] at h
    obtain ⟨-, hcov⟩ := h
    subst hcov
    have hsymm :
        (rbf_kernel X X 1 -
            rbf_kernel X prev_x 1 * (sigma_bb prev_x noise)⁻¹ * rbf_kernel prev_x X 1)ᵀ =
          rbf_kernel X X 1 -
            rbf_kernel X prev_x 1 * (sigma_bb prev_x noise)⁻¹ * rbf_kernel prev_x X 1 := by
      rw [Matrix.transpose_sub, Matrix.transpose_mul, Matrix.transpose_mul,
        Matrix.transpose_nonsing_inv, sigma_bb_transpose, rbf_kernel_transpose,
        rbf_kernel_transpose, rbf_kernel_transpose, Matrix.mul_assoc]
    intro i j
    conv_lhs => rw [← hsymm]
    simp [Matrix.transpose_apply]

/-- Witness for C4 at a concrete defined posterior (two query points, zero
observations): the off-diagonal covariance entries agree. -/
theorem posterior_cov_symmetric_witness :
    rbf_kernel ![(0 : ℝ), 1] ![(0 : ℝ), 1] 1 0 1 =
      rbf_kernel ![(0 : ℝ), 1] ![(0 : ℝ), 1] 1 1 0 :=
  posterior_cov_symmetric ![(0 : ℝ), 1] ![] ![] 0 (fun _ => 0)
    (rbf_kernel ![(0 : ℝ), 1] ![(0 : ℝ), 1] 1) (fitted_gaus_empty _ _ _ _) 0 1

/-- C7 counterexample: the kernel called with the non-positive lengthscale
`−1` does not fail with any error: it returns the fully computed kernel
value, identical to the output for lengthscale `1`. -/
theorem kernel_neg_lengthscale_cex :
    rbf_kernel ![(0 : ℝ)] ![1] (-1) 0 0 = Real.exp (-(1 : ℝ) / 2) ∧
    rbf_kernel ![(0 : ℝ)] ![1] (-1) = rbf_kernel ![(0 : ℝ)] ![1] 1 := by
  constructor
  · simp [rbf_kernel]
  · ext i j
    simp [rbf_kernel]

/-- C7 amended: the kernel performs no parameter validation and has no error
path at all; a non-positive lengthscale is accepted, and `σ` and `−σ`
produce identical kernel matrices (only `σ²` enters the formula). -/
theorem kernel_lengthscale_sign_invariant {p q : ℕ} (x1 : Fin p → ℝ)
    (x2 : Fin q → ℝ) (sigma : ℝ) :
    rbf_kernel x1 x2 (-sigma) = rbf_kernel x1 x2 sigma := by
  ext i j
  simp [rbf_kernel, neg_sq]

/-! Facts about the standard normal density and distribution function. -/

lemma normPdf_even (x : ℝ) : normPdf (-x) = normPdf x := by
  simp [normPdf, neg_sq]

lemma normPdf_eq_exp_mul (x : ℝ) :
    normPdf x = Real.exp (-(1 / 2 : ℝ) * x ^ 2) * (1 / Real.sqrt (2 * π)) := by
  rw [normPdf]
  have h : -x ^ 2 / 2 = -(1 / 2 : ℝ) * x ^ 2 := by ring
  rw [h]
  ring

lemma integrable_normPdf : Integrable normPdf := by
  have hfun : normPdf =
      fun x => Real.exp (-(1 / 2 : ℝ) * x ^ 2) * (1 / Real.sqrt (2 * π)) :=
    funext normPdf_eq_exp_mul
  rw [hfun]
  exact (integrable_exp_neg_mul_sq (by norm_num)).mul_const _

lemma integral_normPdf : ∫ x, normPdf x = 1 := by
  have hfun : normPdf =
      fun x => Real.exp (-(1 / 2 : ℝ) * x ^ 2) * (1 / Real.sqrt (2 * π)) :=
    funext normPdf_eq_exp_mul
  rw [hfun, integral_mul_right, integral_gaussian]
  have h : (π / (1 / 2 : ℝ)) = 2 * π := by ring
  rw [h, mul_one_div, div_self]
  exact Real.sqrt_ne_zero'.mpr (by positivity)

lemma normCdf_neg_eq (x : ℝ) : normCdf (-x) = ∫ t in Ioi x, normPdf t := by
  have heven : (fun t : ℝ => normPdf (-t)) = normPdf := funext normPdf_even
  have h := integral_comp_neg_Iic (-x) normPdf
  rw [heven, neg_neg] at h
  rw [normCdf]
  exact h

lemma normCdf_add_neg (x : ℝ) : normCdf x + normCdf (-x) = 1 := by
  rw [normCdf, normCdf_neg_eq]
  have h := integral_add_compl (measurableSet_Iic : MeasurableSet (Iic x))
    integrable_normPdf
  rw [compl_Iic] at h
  rw [h, integral_normPdf]

lemma normCdf_zero : normCdf 0 = 1 / 2 := by
  have h := normCdf_add_neg 0
  rw [neg_zero] at h
  linarith

lemma normCdf_neg_eq_one_sub (x : ℝ) : normCdf (-x) = 1 - normCdf x := by
  have h := normCdf_add_neg x
  linarith

/-! The squared-exponential kernel is positive semidefinite: its quadratic
form is a limit of sums of squares, via the power series of `exp`. -/

lemma gauss_quad_nonneg {k : ℕ} (a v : Fin k → ℝ) :
    0 ≤ ∑ i, ∑ j, v i * v j * Real.exp (-(a i - a j) ^ 2 / 2) := by
  have hterm : ∀ i j : Fin k,
      v i * v j * Real.exp (-(a i - a j) ^ 2 / 2) =
        (v i * Real.exp (-a i ^ 2 / 2)) * (v j * Real.exp (-a j ^ 2 / 2)) *
          Real.exp (a i * a j) := by
    intro i j
    have harg : -(a i - a j) ^ 2 / 2 =
        -a i ^ 2 / 2 + (-a j ^ 2 / 2 + a i * a j) := by ring
    rw [harg, Real.exp_add, Real.exp_add]
    ring
  set b : Fin k → ℝ := fun i => v i * Real.exp (-a i ^ 2 / 2) with hb
  have hexp : ∀ x : ℝ, Real.exp x = tsum (fun nn : ℕ => x ^ nn / (Nat.factorial nn : ℝ)) := by
    intro x
    rw [Real.exp_eq_exp_ℝ, NormedSpace.exp_eq_tsum_div]
  have hsummable : ∀ i j : Fin k,
      Summable fun nn : ℕ =>
        b i * b j * ((a i * a j) ^ nn / (Nat.factorial nn : ℝ)) :=
    fun i j => (Real.summable_pow_div_factorial (a i * a j)).mul_left _
  have hsumInner : ∀ i : Fin k,
      Summable fun nn : ℕ =>
        ∑ j, b i * b j * ((a i * a j) ^ nn / (Nat.factorial nn : ℝ)) :=
    fun i => summable_sum fun j _ => hsummable i j
  have key : ∑ i, ∑ j, v i * v j * Real.exp (-(a i - a j) ^ 2 / 2) =
      tsum (fun nn : ℕ => (∑ i, b i * a i ^ nn) ^ 2 / (Nat.factorial nn : ℝ)) := by
    have e1 : ∀ i j : Fin k, v i * v j * Real.exp (-(a i - a j) ^ 2 / 2) =
        tsum (fun nn : ℕ => b i * b j * ((a i * a j) ^ nn / (Nat.factorial nn : ℝ))) := by
      intro i j
      rw [hterm i j, hexp (a i * a j), ← tsum_mul_left]
    have e3 : ∀ nn : ℕ,
        ∑ i, ∑ j, b i * b j * ((a i * a j) ^ nn / (Nat.factorial nn : ℝ)) =
        (∑ i, b i * a i ^ nn) ^ 2 / (Nat.factorial nn : ℝ) := by
      intro nn
      rw [pow_two, Fintype.sum_mul_sum]
      simp_rw [Finset.sum_div]
      apply Finset.sum_congr rfl
      intro i _
      apply Finset.sum_congr rfl
      intro j _
      rw [mul_pow]
      ring
    calc ∑ i, ∑ j, v i * v j * Real.exp (-(a i - a j) ^ 2 / 2)
        = ∑ i, ∑ j, tsum (fun nn : ℕ =>
            b i * b j * ((a i * a j) ^ nn / (Nat.factorial nn : ℝ))) :=
          Finset.sum_congr rfl fun i _ => Finset.sum_congr rfl fun j _ => e1 i j
      _ = ∑ i, tsum (fun nn : ℕ => ∑ j,
            b i * b j * ((a i * a j) ^ nn / (Nat.factorial nn : ℝ))) :=
          Finset.sum_congr rfl fun i _ => (tsum_sum fun j _ => hsummable i j).symm
      _ = tsum (fun nn : ℕ => ∑ i, ∑ j,
            b i * b j * ((a i * a j) ^ nn / (Nat.factorial nn : ℝ))) :=
          (tsum_sum fun i _ => hsumInner i).symm
      _ = tsum (fun nn : ℕ => (∑ i, b i * a i ^ nn) ^ 2 / (Nat.factorial nn : ℝ)) :=
          tsum_congr e3
  rw [key]
  apply tsum_nonneg
  intro nn
  positivity

lemma sigma_bb_quad {m : ℕ} (p : Fin m → ℝ) (ν : ℝ) (w : Fin m → ℝ) :
    w ⬝ᵥ (sigma_bb p ν).mulVec w =
      (∑ i, ∑ j, w i * w j * Real.exp (-(p i - p j) ^ 2 / 2)) +
        ν ^ 2 * ∑ i, w i ^ 2 := by
  rw [sigma_bb, Matrix.add_mulVec, dotProduct_add]
  congr 1
  · simp only [Matrix.mulVec, dotProduct, rbf_kernel, Matrix.of_apply]
    apply Finset.sum_congr rfl
    intro i _
    rw [Finset.mul_sum]
    apply Finset.sum_congr rfl
    intro j _
    have h : -(p j - p i) ^ 2 / (2 * (1 : ℝ) ^ 2) = -(p i - p j) ^ 2 / 2 := by
      ring
    rw [h]
    ring
  · rw [Matrix.smul_mulVec_assoc, Matrix.one_mulVec, dotProduct_smul, smul_eq_mul]
    congr 1
    simp [dotProduct, sq]

/-- With a nonzero noise term the regularized observation covariance is
positive definite, hence nonsingular. -/
lemma sigma_bb_det_ne_of_noise {m : ℕ} (p : Fin m → ℝ) {ν : ℝ} (hν : ν ≠ 0) :
    (sigma_bb p ν).det ≠ 0 := by
  intro h0
  obtain ⟨w, hw, hmv⟩ := Matrix.exists_mulVec_eq_zero_iff.mpr h0
  have h1 : w ⬝ᵥ (sigma_bb p ν).mulVec w = 0 := by
    rw [hmv, dotProduct_zero]
  rw [sigma_bb_quad] at h1
  have hν2 : 0 < ν ^ 2 := lt_of_le_of_ne (sq_nonneg ν) (Ne.symm (pow_ne_zero 2 hν))
  have hsum : 0 < ∑ i, w i ^ 2 := by
    obtain ⟨i, hi⟩ := Function.ne_iff.mp hw
    apply Finset.sum_pos' (fun j _ => sq_nonneg (w j))
    exact ⟨i, Finset.mem_univ i,
      lt_of_le_of_ne (sq_nonneg (w i)) (Ne.symm (pow_ne_zero 2 hi))⟩
  have := gauss_quad_nonneg p w
  nlinarith

lemma fitted_gaus_isSome {n m : ℕ} (X : Fin n → ℝ) (prev_x prev_y : Fin m → ℝ)
    (noise : ℝ) (h : (sigma_bb prev_x noise).det ≠ 0) :
    (fitted_gaus X prev_x prev_y noise).isSome := by
  rw [fitted_gaus_of_det_ne _ _ _ _ h]
  rfl

/-- The determinant of Σ_oo for two observed points 10⁻⁶ apart, zero noise. -/
lemma sigma_bb_close_det :
    (sigma_bb ![(0 : ℝ), 1 / 1000000] 0).det =
      1 - Real.exp (-(1 / 1000000000000 : ℝ)) := by
  rw [Matrix.det_fin_two]
  norm_num [sigma_bb, Matrix.add_apply, Matrix.smul_apply, Matrix.one_apply,
    rbf_kernel, Matrix.of_apply, Matrix.cons_val_zero, Matrix.cons_val_one,
    Matrix.head_cons]
  rw [← Real.exp_add]
  norm_num

/-- C6 counterexample: the Σ_oo built from two observed points 10⁻⁶ apart
with zero noise is ill-conditioned beyond any reasonable tolerance (its
determinant is positive but below 10⁻¹², while the entries are of order 1),
yet the GP posterior succeeds on it instead of failing: the code applies no
condition-number tolerance. -/
theorem posterior_illconditioned_succeeds_cex :
    0 < (sigma_bb ![(0 : ℝ), 1 / 1000000] 0).det ∧
      (sigma_bb ![(0 : ℝ), 1 / 1000000] 0).det < 1 / 1000000000000 ∧
      (fitted_gaus ![(5 : ℝ)] ![(0 : ℝ), 1 / 1000000] ![1, 1] 0).isSome := by
  have hd := sigma_bb_close_det
  have h1 : Real.exp (-(1 / 1000000000000 : ℝ)) < 1 := by
    rw [Real.exp_lt_one_iff]
    norm_num
  have h2 : 1 - Real.exp (-(1 / 1000000000000 : ℝ)) < 1 / 1000000000000 := by
    have h3 := Real.add_one_lt_exp
      (show (-(1 / 1000000000000 : ℝ)) ≠ 0 by norm_num)
    linarith
  have hpos : 0 < (sigma_bb ![(0 : ℝ), 1 / 1000000] 0).det := by
    rw [hd]
    linarith
  exact ⟨hpos, by rw [hd]; exact h2,
    fitted_gaus_isSome _ _ _ _ hpos.ne'⟩

/-- C6 amended: the posterior fails — an uncaught LinAlgError raised by
np.linalg.inv — exactly when Σ_oo is exactly singular (det = 0); there is no
condition-number tolerance and no error-kind classification.  Moreover, for
any nonzero noise_std, Σ_oo is positive definite, so the posterior always
succeeds. -/
theorem posterior_fails_iff_exactly_singular {n m : ℕ} (X : Fin n → ℝ)
    (prev_x prev_y : Fin m → ℝ) (noise : ℝ) :
    (fitted_gaus X prev_x prev_y noise = none ↔ (sigma_bb prev_x noise).det = 0) ∧
      (noise ≠ 0 → (fitted_gaus X prev_x prev_y noise).isSome) :=
  ⟨fitted_gaus_none_iff X prev_x prev_y noise, fun hν =>
    fitted_gaus_isSome X prev_x prev_y noise (sigma_bb_det_ne_of_noise prev_x hν)⟩

/-- Witness for C6's amended theorem: with noise_std = 1 the posterior
succeeds. -/
theorem posterior_fails_iff_exactly_singular_witness :
    (fitted_gaus ![(0 : ℝ)] ![0] ![1] 1).isSome :=
  (posterior_fails_iff_exactly_singular ![(0 : ℝ)] ![0] ![1] 1).2 (by norm_num)

/-- Bordered form of the kernel PSD fact: border the point family `p` with
one extra point `q` carrying weight 1, weights `w` elsewhere. -/
lemma gauss_quad_nonneg_bordered {m : ℕ} (q : ℝ) (p w : Fin m → ℝ) :
    0 ≤ 1 + 2 * (∑ j, w j * Real.exp (-(q - p j) ^ 2 / 2)) +
      ∑ i, ∑ j, w i * w j * Real.exp (-(p i - p j) ^ 2 / 2) := by
  have h := gauss_quad_nonneg (Fin.cons q p) (Fin.cons 1 w)
  set aa : Fin (m + 1) → ℝ := Fin.cons q p with haa
  set vv : Fin (m + 1) → ℝ := Fin.cons 1 w with hvv
  have h0 : ∑ j' : Fin (m + 1), vv 0 * vv j' * Real.exp (-(aa 0 - aa j') ^ 2 / 2) =
      1 + ∑ j, w j * Real.exp (-(q - p j) ^ 2 / 2) := by
    rw [Fin.sum_univ_succ]
    simp [hvv, haa, Fin.cons_zero, Fin.cons_succ]
  have hsucc : ∀ i0 : Fin m, ∑ j' : Fin (m + 1),
      vv i0.succ * vv j' * Real.exp (-(aa i0.succ - aa j') ^ 2 / 2) =
      w i0 * Real.exp (-(q - p i0) ^ 2 / 2) +
        ∑ j, w i0 * w j * Real.exp (-(p i0 - p j) ^ 2 / 2) := by
    intro i0
    rw [Fin.sum_univ_succ]
    simp only [hvv, haa, Fin.cons_zero, Fin.cons_succ, mul_one]
    have harg : (-(p i0 - q) ^ 2 / 2 : ℝ) = -(q - p i0) ^ 2 / 2 := by ring
    rw [harg]
  have hexpand : ∑ i' : Fin (m + 1), ∑ j' : Fin (m + 1),
      vv i' * vv j' * Real.exp (-(aa i' - aa j') ^ 2 / 2) =
      1 + 2 * (∑ j, w j * Real.exp (-(q - p j) ^ 2 / 2)) +
        ∑ i, ∑ j, w i * w j * Real.exp (-(p i - p j) ^ 2 / 2) := by
    rw [Fin.sum_univ_succ, h0]
    simp only [hsucc]
    rw [Finset.sum_add_distrib]
    ring
  rw [hexpand] at h
  exact h

/-- C8 (exact-arithmetic content): whenever the GP posterior succeeds, every
diagonal entry of the returned covariance is non-negative.  The code applies
no clamping to this quantity; any negative value it could take in floating
point is a rounding artefact of this non-negative real quantity, and is
passed to np.sqrt unclamped. -/
theorem posterior_diag_nonneg {n m : ℕ} (X : Fin n → ℝ) (prev_x prev_y : Fin m → ℝ)
    (noise : ℝ) (mean : Fin n → ℝ) (cov : Matrix (Fin n) (Fin n) ℝ)
    (h : fitted_gaus X prev_x prev_y noise = some (mean, cov)) :
    ∀ i, 0 ≤ cov i i := by
  by_cases hdet : (sigma_bb prev_x noise).det = 0
  · simp [fitted_gaus, hdet] at h
  · rw [fitted_gaus_of_det_ne _ _ _ _ hdet] at h
    simp only [Option.some.injEq, Prod.mk.injEq] at h
    obtain ⟨-, hcov⟩ := h
    subst hcov
    intro i
    rw [Matrix.sub_apply]
    set κ : Fin m → ℝ := fun j => Real.exp (-(X i - prev_x j) ^ 2 / 2) with hκ
    set w : Fin m → ℝ := -((sigma_bb prev_x noise)⁻¹.mulVec κ) with hw
    have hdiag : rbf_kernel X X 1 i i = 1 := by
      simp [rbf_kernel]
    have hAl : ∀ l, rbf_kernel X prev_x 1 i l = κ l := by
      intro l
      simp only [rbf_kernel, Matrix.of_apply, hκ]
      congr 1
      ring
    have hCl : ∀ l, rbf_kernel prev_x X 1 l i = κ l := by
      intro l
      simp only [rbf_kernel, Matrix.of_apply, hκ]
      congr 1
      ring
    have hentry :
        (rbf_kernel X prev_x 1 * (sigma_bb prev_x noise)⁻¹ * rbf_kernel prev_x X 1) i i =
          κ ⬝ᵥ ((sigma_bb prev_x noise)⁻¹.mulVec κ) := by
      rw [Matrix.mul_assoc, Matrix.mul_apply, dotProduct]
      apply Finset.sum_congr rfl
      intro l _
      rw [hAl l]
      congr 1
      simp only [Matrix.mul_apply, Matrix.mulVec, dotProduct]
      apply Finset.sum_congr rfl
      intro j _
      rw [hCl j]
    have hSw : (sigma_bb prev_x noise).mulVec w = -κ := by
      rw [hw, Matrix.mulVec_neg, Matrix.mulVec_mulVec,
        Matrix.mul_nonsing_inv _ (isUnit_iff_ne_zero.mpr hdet), Matrix.one_mulVec]
    have hwk : w ⬝ᵥ κ = -(κ ⬝ᵥ ((sigma_bb prev_x noise)⁻¹.mulVec κ)) := by
      rw [hw, neg_dotProduct, dotProduct_comm]
    have hwSw : w ⬝ᵥ (sigma_bb prev_x noise).mulVec w =
        κ ⬝ᵥ ((sigma_bb prev_x noise)⁻¹.mulVec κ) := by
      rw [hSw, dotProduct_neg, hwk, neg_neg]
    have hquad := sigma_bb_quad prev_x noise w
    have hbord := gauss_quad_nonneg_bordered (X i) prev_x w
    have hdot : ∑ j, w j * Real.exp (-(X i - prev_x j) ^ 2 / 2) = w ⬝ᵥ κ := by
      simp [hκ, dotProduct]
    rw [hdot] at hbord
    have hsq : 0 ≤ noise ^ 2 * ∑ j, w j ^ 2 :=
      mul_nonneg (sq_nonneg _) (Finset.sum_nonneg fun j _ => sq_nonneg _)
    rw [hdiag, hentry]
    linarith

lemma sigma_bb_det_one (p : Fin 1 → ℝ) (ν : ℝ) : (sigma_bb p ν).det = 1 + ν ^ 2 := by
  rw [Matrix.det_fin_one]
  simp [sigma_bb, rbf_kernel, Matrix.add_apply, Matrix.smul_apply, Matrix.one_apply]

lemma sigma_bb_one_noiseless (p : Fin 1 → ℝ) : sigma_bb p 0 = 1 := by
  ext i j
  fin_cases i
  fin_cases j
  simp [sigma_bb, rbf_kernel, Matrix.add_apply, Matrix.smul_apply, Matrix.one_apply]

lemma rbf_kernel_single_self (p : Fin 1 → ℝ) : rbf_kernel p p 1 = 1 := by
  ext i j
  fin_cases i
  fin_cases j
  simp [rbf_kernel, Matrix.one_apply]

/-- The posterior at candidate 0 for the single observation (0, 1) with zero
noise: mean 1 and covariance exactly 0 (already-sampled point). -/
lemma fitted_gaus_zero_case :
    fitted_gaus ![(0 : ℝ)] ![0] ![1] 0 = some (fun _ => 1, 0) := by
  have hdet : (sigma_bb ![(0 : ℝ)] 0).det ≠ 0 := by
    rw [sigma_bb_det_one]
    norm_num
  have hinv : ((1 : Matrix (Fin 1) (Fin 1) ℝ))⁻¹ = 1 :=
    Matrix.inv_eq_left_inv (by rw [one_mul])
  have hv : (![(1 : ℝ)] : Fin 1 → ℝ) = fun _ => 1 := by
    funext i
    fin_cases i
    rfl
  rw [fitted_gaus_of_det_ne _ _ _ _ hdet, sigma_bb_one_noiseless, hinv,
    Matrix.mul_one, rbf_kernel_single_self, Matrix.one_mulVec, hv, one_mul,
    sub_self]

/-- C5, the code evaluated at the failing input: at a candidate equal to the
single observed point with zero noise the posterior σ is exactly 0, and
prob_imp — through its soft guard σ + 10⁻⁹ with ε = 0 — returns
Φ(0) = 1/2, not the score 0 that the claim requires. -/
theorem prob_imp_sigma_zero_returns_half :
    prob_imp ![(0 : ℝ)] ![0] ![1] 0 0 = some (fun _ => (1 : ℝ) / 2) := by
  simp only [prob_imp, fitted_gaus_zero_case]
  rw [dif_pos (Nat.succ_pos 0)]
  congr 1
  funext i
  simp [Finset.sup'_const, Matrix.zero_apply, Real.sqrt_zero, normCdf_zero]

/-- Witness for C8's theorem, at the empty-observation posterior. -/
theorem posterior_diag_nonneg_witness :
    0 ≤ rbf_kernel ![(0 : ℝ)] ![(0 : ℝ)] 1 0 0 :=
  posterior_diag_nonneg ![(0 : ℝ)] ![] ![] 0 (fun _ => 0)
    (rbf_kernel ![(0 : ℝ)] ![(0 : ℝ)] 1) (fitted_gaus_empty _ _ _ _) 0

lemma exp_imp_isSome_of {n m : ℕ} (X : Fin n → ℝ) (prev_x prev_y : Fin m → ℝ)
    (noise epcilon : ℝ) (hm : 0 < m) (hdet : (sigma_bb prev_x noise).det ≠ 0) :
    ∃ v, exp_imp X prev_x prev_y noise epcilon = some v := by
  simp only [exp_imp, fitted_gaus_of_det_ne _ _ _ _ hdet]
  rw [dif_pos hm]
  exact ⟨_, rfl⟩

/-- C2 amended: the EI the code computes equals, on every input, the spec's
EI formula with the sign of the improvement corrected to the maximization
convention: `(μ − f* − ε)·Φ(Z) + σ·φ(Z)` with `Z = (μ − f* − ε)/σ`, where
`f*` is the maximum posterior mean over the observed points obtained by a
second posterior call (not the maximum raw observed y).  Both sides fail on
exactly the same inputs (singular Σ_oo, or an empty observation set). -/
theorem ei_matches_amended_spec {n m : ℕ} (q : Fin n → ℝ) (ox oy : Fin m → ℝ)
    (noise_std eps : ℝ) :
    exp_imp q ox oy noise_std eps = ei_spec_amended q ox oy noise_std eps := by
  by_cases hdet : (sigma_bb ox noise_std).det = 0
  · have h1 : fitted_gaus q ox oy noise_std = none :=
      (fitted_gaus_none_iff _ _ _ _).mpr hdet
    have h2 : fitted_gaus ox ox oy noise_std = none :=
      (fitted_gaus_none_iff _ _ _ _).mpr hdet
    rw [ei_spec_amended,
      dif_neg (fun hcon => hcon.2 (by rw [← sigma_bb_eq_spec]; exact hdet))]
    simp only [exp_imp, h1, h2]
  · by_cases hm : 0 < m
    · rw [ei_spec_amended, dif_pos ⟨hm, by rw [← sigma_bb_eq_spec]; exact hdet⟩]
      simp only [exp_imp, fitted_gaus_of_det_ne _ _ _ _ hdet]
      rw [dif_pos hm]
      congr 1
      funext i
      simp only [specMean, specCov, ← rbf_kernel_eq_specKmat, ← sigma_bb_eq_spec]
    · rw [ei_spec_amended, dif_neg (fun hcon => hm hcon.1)]
      simp only [exp_imp, fitted_gaus_of_det_ne _ _ _ _ hdet]
      rw [dif_neg hm]

/-- The posterior at candidate 1 for the single observation (0, 1), zero
noise: mean `e^{-1/2}` and variance `1 - e^{-1}`. -/
lemma fitted_gaus_cand_case :
    fitted_gaus ![(1 : ℝ)] ![0] ![1] 0 =
      some (fun _ => Real.exp (-(1 : ℝ) / 2),
        Matrix.of fun _ _ => 1 - Real.exp (-1)) := by
  have hdet : (sigma_bb ![(0 : ℝ)] 0).det ≠ 0 := by
    rw [sigma_bb_det_one]
    norm_num
  have hinv : ((1 : Matrix (Fin 1) (Fin 1) ℝ))⁻¹ = 1 :=
    Matrix.inv_eq_left_inv (by rw [one_mul])
  rw [fitted_gaus_of_det_ne _ _ _ _ hdet, sigma_bb_one_noiseless, hinv,
    Matrix.mul_one, rbf_kernel_single_self]
  congr 1
  refine Prod.ext ?_ ?_
  · funext i
    fin_cases i
    simp [Matrix.mulVec, dotProduct, rbf_kernel, Fin.sum_univ_one]
  · ext i j
    fin_cases i
    fin_cases j
    simp [Matrix.sub_apply, Matrix.mul_apply, Matrix.one_apply, rbf_kernel,
      Fin.sum_univ_one]
    rw [← Real.exp_add]
    norm_num

/-- C2 counterexample: at candidate 1 with the single observation (0, 1),
zero noise and ε = 0, the code's EI differs from the claim's formula
`(f* − μ − ε)·Φ(Z) + σ·φ(Z)` with `Z = (f* − μ − ε)/σ`: the code computes
the improvement as `μ − f* − ε` and the two values differ by exactly
`f* − μ = 1 − e^{-1/2} ≠ 0`. -/
theorem ei_claim_formula_cex :
    exp_imp ![(1 : ℝ)] ![0] ![1] 0 0 ≠ ei_spec_claimed ![(1 : ℝ)] ![0] ![1] 0 0 := by
  have hdetS : (specSigmaOO 1 ![(0 : ℝ)] 0).det ≠ 0 := by
    rw [← sigma_bb_eq_spec, sigma_bb_det_one]
    norm_num
  have hcode : exp_imp ![(1 : ℝ)] ![0] ![1] 0 0 = some (fun _ =>
      (Real.exp (-(1 : ℝ) / 2) - 1) *
        normCdf ((Real.exp (-(1 : ℝ) / 2) - 1) / Real.sqrt (1 - Real.exp (-1))) +
      Real.sqrt (1 - Real.exp (-1)) *
        normPdf ((Real.exp (-(1 : ℝ) / 2) - 1) / Real.sqrt (1 - Real.exp (-1)))) := by
    simp only [exp_imp, fitted_gaus_cand_case, fitted_gaus_zero_case]
    rw [dif_pos (Nat.succ_pos 0)]
    congr 1
    funext i
    simp [Finset.sup'_const, Matrix.of_apply, sub_zero]
  have hspec := fitted_gaus_eq_spec ![(1 : ℝ)] ![0] ![1] 0 hdetS
  rw [fitted_gaus_cand_case] at hspec
  simp only [Option.some.injEq, Prod.mk.injEq] at hspec
  obtain ⟨hmean, hcov⟩ := hspec
  have hspec0 := fitted_gaus_eq_spec ![(0 : ℝ)] ![0] ![1] 0 hdetS
  rw [fitted_gaus_zero_case] at hspec0
  simp only [Option.some.injEq, Prod.mk.injEq] at hspec0
  obtain ⟨hmean0, -⟩ := hspec0
  have hclaim : ei_spec_claimed ![(1 : ℝ)] ![0] ![1] 0 0 = some (fun _ =>
      (1 - Real.exp (-(1 : ℝ) / 2)) *
        normCdf ((1 - Real.exp (-(1 : ℝ) / 2)) / Real.sqrt (1 - Real.exp (-1))) +
      Real.sqrt (1 - Real.exp (-1)) *
        normPdf ((1 - Real.exp (-(1 : ℝ) / 2)) / Real.sqrt (1 - Real.exp (-1)))) := by
    rw [ei_spec_claimed, dif_pos ⟨Nat.succ_pos 0, hdetS⟩, ← hmean, ← hcov,
      ← hmean0]
    simp [Finset.sup'_const, Matrix.of_apply, sub_zero]
  intro heq
  rw [hcode, hclaim] at heq
  have hval := congrFun (Option.some.inj heq) 0
  set μ := Real.exp (-(1 : ℝ) / 2) with hμdef
  set s := Real.sqrt (1 - Real.exp (-1)) with hsdef
  have hz : (1 - μ) / s = -((μ - 1) / s) := by ring
  rw [hz, normCdf_neg_eq_one_sub, normPdf_even] at hval
  have hμlt : μ < 1 := by
    rw [hμdef]
    exact Real.exp_lt_one_iff.mpr (by norm_num)
  have hzero : (1 : ℝ) - μ = 0 := by linear_combination -hval
  linarith

/-! The first-occurrence argmax and the optimization-loop step. -/

lemma argmaxUpTo_spec {k : ℕ} (v : Fin (k + 1) → ℝ) (nn : ℕ) :
    ((argmaxUpTo v nn : Fin (k + 1)) : ℕ) ≤ nn ∧
      (∀ i : Fin (k + 1), (i : ℕ) ≤ nn → v i ≤ v (argmaxUpTo v nn)) ∧
      (∀ i : Fin (k + 1), (i : ℕ) < ((argmaxUpTo v nn : Fin (k + 1)) : ℕ) →
        v i < v (argmaxUpTo v nn)) := by
  induction nn with
  | zero =>
      refine ⟨by simp [argmaxUpTo], ?_, ?_⟩
      · intro i hi
        have h0 : i = argmaxUpTo v 0 := by
          simp only [argmaxUpTo]
          exact Fin.ext (by simpa using Nat.le_zero.mp hi)
        rw [h0]
      · intro i hi
        simp only [argmaxUpTo] at hi
        simp at hi
  | succ j ih =>
      obtain ⟨ihb, ihmax, ihfirst⟩ := ih
      by_cases h : j + 1 < k + 1
      · by_cases hlt : v (argmaxUpTo v j) < v ⟨j + 1, h⟩
        · have heq : argmaxUpTo v (j + 1) = ⟨j + 1, h⟩ := by
            simp only [argmaxUpTo]
            rw [dif_pos h, if_pos hlt]
          rw [heq]
          refine ⟨Nat.le_refl _, ?_, ?_⟩
          · intro i hi
            by_cases hij : (i : ℕ) ≤ j
            · exact le_trans (ihmax i hij) (le_of_lt hlt)
            · have hieq : i = ⟨j + 1, h⟩ := Fin.ext (show (i : ℕ) = j + 1 by omega)
              rw [hieq]
          · intro i hi
            have hij : (i : ℕ) ≤ j := by
              have hi' : (i : ℕ) < j + 1 := hi
              omega
            exact lt_of_le_of_lt (ihmax i hij) hlt
        · have heq : argmaxUpTo v (j + 1) = argmaxUpTo v j := by
            simp only [argmaxUpTo]
            rw [dif_pos h, if_neg hlt]
          rw [heq]
          push_neg at hlt
          refine ⟨le_trans ihb (Nat.le_succ j), ?_, ihfirst⟩
          intro i hi
          by_cases hij : (i : ℕ) ≤ j
          · exact ihmax i hij
          · have hieq : i = ⟨j + 1, h⟩ := Fin.ext (show (i : ℕ) = j + 1 by omega)
            rw [hieq]
            exact hlt
      · have heq : argmaxUpTo v (j + 1) = argmaxUpTo v j := by
          simp only [argmaxUpTo]
          rw [dif_neg h]
        rw [heq]
        refine ⟨le_trans ihb (Nat.le_succ j), ?_, ihfirst⟩
        intro i _
        apply ihmax i
        have hik : (i : ℕ) < k + 1 := i.isLt
        omega

lemma argmaxIdx_max {k : ℕ} (v : Fin (k + 1) → ℝ) (i : Fin (k + 1)) :
    v i ≤ v (argmaxIdx v) :=
  (argmaxUpTo_spec v k).2.1 i (Nat.lt_succ_iff.mp i.isLt)

lemma argmaxIdx_first {k : ℕ} (v : Fin (k + 1) → ℝ) (i : Fin (k + 1))
    (h : (i : ℕ) < ((argmaxIdx v : Fin (k + 1)) : ℕ)) : v i < v (argmaxIdx v) :=
  (argmaxUpTo_spec v k).2.2 i h

lemma xs_eval (j : Fin 100) : xs j = 10 * ((j : ℕ) : ℝ) / 99 := by
  norm_num [xs, linspace, bounds]

lemma xs_mem_bounds (j : Fin 100) : bounds.1 ≤ xs j ∧ xs j ≤ bounds.2 := by
  have hb1 : bounds.1 = (0 : ℝ) := rfl
  have hb2 : bounds.2 = (10 : ℝ) := rfl
  have hj : ((j : ℕ) : ℝ) ≤ 99 := by
    have h99 := Nat.lt_succ_iff.mp j.isLt
    exact_mod_cast h99
  constructor
  · rw [hb1, xs_eval]
    positivity
  · rw [hb2, xs_eval, div_le_iff₀ (by norm_num : (0 : ℝ) < 99)]
    linarith

/-- C9: each defined loop iteration appends exactly one pair to (X, Y):
new_x is the candidate-grid point at np.argmax of the EI scores — the first
index attaining the maximum value, giving a deterministic first-occurrence
tie-break in grid order — and new_y is the oracle value there; the two
lists keep equal lengths, each growing by exactly one. -/
theorem loop_step_appends_argmax (f : ℝ → ℝ) (noise epcilon : ℝ)
    (X Y X' Y' : List ℝ) (hlen : Y.length = X.length)
    (h : bo_step f noise epcilon X Y = some (X', Y')) :
    X'.length = X.length + 1 ∧ Y'.length = Y.length + 1 ∧
      ∃ probas : Fin 100 → ℝ,
        exp_imp xs X.get (fun i => Y.get (Fin.cast hlen.symm i)) noise epcilon =
          some probas ∧
        X' = X ++ [xs (argmaxIdx probas)] ∧
        Y' = Y ++ [f (xs (argmaxIdx probas))] ∧
        (∀ i, probas i ≤ probas (argmaxIdx probas)) ∧
        (∀ i : Fin 100, (i : ℕ) < ((argmaxIdx probas : Fin 100) : ℕ) →
          probas i < probas (argmaxIdx probas)) := by
  rw [bo_step, dif_pos hlen] at h
  cases hE : exp_imp xs X.get (fun i => Y.get (Fin.cast hlen.symm i)) noise epcilon with
  | none =>
      rw [hE] at h
      simp at h
  | some probas =>
      rw [hE] at h
      simp only [Option.some.injEq, Prod.mk.injEq] at h
      obtain ⟨hX', hY'⟩ := h
      exact ⟨by rw [← hX']; simp, by rw [← hY']; simp, probas, rfl, hX'.symm,
        hY'.symm, fun i => argmaxIdx_max probas i,
        fun i hi => argmaxIdx_first probas i hi⟩

/-- C10: every x appended by a defined loop iteration is an element of the
fixed 100-point evenly spaced candidate grid `xs` over
`[bounds.1, bounds.2] = [0, 10]`, every grid point lies within those bounds,
and hence so does every sampled x beyond the random seed point. -/
theorem loop_step_within_bounds (f : ℝ → ℝ) (noise epcilon : ℝ)
    (X Y X' Y' : List ℝ)
    (h : bo_step f noise epcilon X Y = some (X', Y')) :
    (∀ j : Fin 100, bounds.1 ≤ xs j ∧ xs j ≤ bounds.2) ∧
      ∃ j : Fin 100, X' = X ++ [xs j] := by
  refine ⟨fun j => xs_mem_bounds j, ?_⟩
  by_cases hlen : Y.length = X.length
  · rw [bo_step, dif_pos hlen] at h
    cases hE : exp_imp xs X.get (fun i => Y.get (Fin.cast hlen.symm i)) noise epcilon with
    | none =>
        rw [hE] at h
        simp at h
    | some probas =>
        rw [hE] at h
        simp only [Option.some.injEq, Prod.mk.injEq] at h
        exact ⟨argmaxIdx probas, h.1.symm⟩
  · rw [bo_step, dif_neg hlen] at h
    simp at h

lemma bo_step_isSome (f : ℝ → ℝ) (noise epcilon : ℝ) (X Y : List ℝ)
    (hlen : Y.length = X.length) (hm : 0 < X.length)
    (hdet : (sigma_bb X.get noise).det ≠ 0) :
    ∃ pr : List ℝ × List ℝ, bo_step f noise epcilon X Y = some pr := by
  rw [bo_step, dif_pos hlen]
  obtain ⟨v, hv⟩ := exp_imp_isSome_of xs X.get
    (fun i => Y.get (Fin.cast hlen.symm i)) noise epcilon hm hdet
  rw [hv]
  exact ⟨_, rfl⟩

/-- Witness for C9 at the concrete one-observation state X = Y = [0] with
noise_std 1: the step succeeds and both lists grow to length 2. -/
theorem loop_step_appends_argmax_witness :
    ∃ X' Y' : List ℝ, bo_step (fun _ => (0 : ℝ)) 1 0 [0] [0] = some (X', Y') ∧
      X'.length = 2 ∧ Y'.length = 2 := by
  obtain ⟨⟨X', Y'⟩, hpr⟩ := bo_step_isSome (fun _ => (0 : ℝ)) 1 0 [0] [0] rfl
    (by norm_num) (sigma_bb_det_ne_of_noise _ one_ne_zero)
  obtain ⟨h1, h2, -⟩ :=
    loop_step_appends_argmax (fun _ => (0 : ℝ)) 1 0 [0] [0] X' Y' rfl hpr
  exact ⟨X', Y', hpr, h1, h2⟩

/-- Witness for C10 at a concrete two-observation state: the appended point
is a grid point lying in [0, 10]. -/
theorem loop_step_within_bounds_witness :
    ∃ X' Y' : List ℝ,
      bo_step (fun _ => (0 : ℝ)) 1 0 [0, 5] [0, 0] = some (X', Y') ∧
      ∃ j : Fin 100, X' = [0, 5] ++ [xs j] ∧ (0 : ℝ) ≤ xs j ∧ xs j ≤ 10 := by
  obtain ⟨⟨X', Y'⟩, hpr⟩ := bo_step_isSome (fun _ => (0 : ℝ)) 1 0 [0, 5] [0, 0] rfl
    (by norm_num) (sigma_bb_det_ne_of_noise _ one_ne_zero)
  obtain ⟨hbnd, j, hj⟩ :=
    loop_step_within_bounds (fun _ => (0 : ℝ)) 1 0 [0, 5] [0, 0] X' Y' hpr
  exact ⟨X', Y', hpr, j, hj, (hbnd j).1, (hbnd j).2⟩

end

end BayesOpt
